import Mathlib

/-!
A shallow embedding of `decidim-electionguard`'s bulletin board
(`src/decidim/electionguard/bulletin_board.py`): a message-driven election
state machine (key ceremony → voting → tallying), each phase gated on a
quorum of distinct guardian contributions.

Modelling conventions:
* Python dictionaries become insertion-ordered association lists
  (`List (Nat × α)`); `dinsert` reproduces CPython's dict-assignment
  semantics (overwrite in place, append new keys at the end).
* Python sets become duplicate-free lists (`sinsert`), whose length is the
  number of distinct elements, matching `len` on a `set`.
* Guardian ids, keys, ballots, ciphertexts, partial decryptions and hashes
  are opaque to this engine and are embedded as `Nat`.
* Attributes that `__init__` leaves unset (`tally`, `election_metadata` /
  `election_context`, `joint_key`) become `Option` fields initialised to
  `none`; reading such an attribute while it is `none` is Python's
  `AttributeError`, embedded as `BBError.AttributeError`.
* The cryptographic collaborators (`electionguard` library functions) are
  out of scope per the spec and are passed in as a `Crypto` record of
  opaque total functions.
-/

/-- Election parameters produced by `election_builder.build()`
(`election_metadata` and `election_context` collapsed into one record;
the engine itself only ever reads `crypto_extended_base_hash`). -/
structure ElectionParams where
  crypto_extended_base_hash : Nat
deriving DecidableEq

/-- One selection of the ciphertext tally (`CiphertextTallySelection`). -/
structure TallySelection where
  object_id : Nat
  ciphertext : Nat
deriving DecidableEq

/-- One contest of the ciphertext tally, with its selections in dictionary
(insertion) order (`CiphertextTallyContest.tally_selections.values()`). -/
structure TallyContest where
  object_id : Nat
  tally_selections : List TallySelection
deriving DecidableEq

/-- The tally accumulator (`CiphertextTally`); `cast` is the dictionary of
cast contests, in insertion order. -/
structure CiphertextTally where
  cast : List TallyContest
deriving DecidableEq

/-- The selections of one contest inside a trustee's share bundle
(`share.contests[question_id].selections`): selection id ↦ partial
decryption. -/
structure ShareContest where
  selections : List (Nat × Nat)
deriving DecidableEq

/-- A guardian's decryption share bundle (`TrusteeShare` from
`messages.py`, fields as read by `bulletin_board.py`: `guardian_id`,
`public_key`, `contests`). -/
structure TrusteeShare where
  guardian_id : Nat
  public_key : Nat
  contests : List (Nat × ShareContest)
deriving DecidableEq

/-- The delegated cryptographic collaborators (spec §6): combination of
public keys, election-parameter building, ballot validation, tally
construction and accumulation, and per-selection decryption.  They are
opaque to the engine and appear here as parameters. -/
structure Crypto where
  elgamal_combine_public_keys : List Nat → Nat
  build_params : Nat → ElectionParams
  ballot_is_valid_for_election : Nat → ElectionParams → Bool
  init_tally : ElectionParams → CiphertextTally
  tally_ballot : Nat → CiphertextTally → CiphertextTally
  decrypt_selection_with_decryption_shares :
    Nat → List (Nat × (Nat × Nat)) → Nat → Nat

/-- `BulletinBoardContext`.  `__init__` sets only `public_keys`,
`has_joint_key` and `shares`; the remaining attributes are unset until a
step assigns them, hence `Option`.  `number_of_guardians` is installed by
`build_election` (modelled below); its default `0` is never read before
`create_election` in any run this development reasons about. -/
structure BulletinBoardContext where
  number_of_guardians : Nat := 0
  public_keys : List (Nat × Nat)
  has_joint_key : Bool
  shares : List (Nat × TrusteeShare)
  joint_key : Option Nat
  election_params : Option ElectionParams
  tally : Option CiphertextTally
deriving DecidableEq

/-- The step (phase) classes of `bulletin_board.py`; phase-local
accumulators (`partial_keys_received`, `verifications_received`) are the
constructor payloads, initialised empty by the dispatcher's `setup`. -/
inductive Step where
  | ProcessCreateElection
  | ProcessStartKeyCeremony
  | ProcessTrusteeElectionKeys
  | ProcessTrusteeElectionPartialKeys (received : List Nat)
  | ProcessTrusteeVerification (received : List Nat)
  | ProcessStartVote
  | ProcessCastVote
  | ProcessStartTally
  | ProcessTrusteeShare
deriving DecidableEq

/-- The wire-level `message_type` strings, embedded as an enumeration
(`create_election`, …, `vote.cast`, `end_vote`, `tally.trustee_share`). -/
inductive MsgType where
  | create_election
  | start_key_ceremony
  | trustee_election_keys
  | trustee_partial_election_keys
  | trustee_verification
  | start_vote
  | vote_cast
  | end_vote
  | start_tally
  | trustee_share
deriving DecidableEq

/-- An inbound message with its already-deserialised content (payload
decoding is delegated to `deserialize`, out of scope here). -/
inductive Msg where
  | create_election (number_of_guardians : Nat)
  | start_key_ceremony
  | trustee_election_keys (guardian_id key : Nat)
  | trustee_partial_election_keys (guardian_id : Nat)
  | trustee_verification (guardian_id : Nat)
  | start_vote
  | vote_cast (ballot : Nat)
  | end_vote
  | start_tally
  | trustee_share (content : TrusteeShare)
deriving DecidableEq

/-- The `message_type` tag of a message. -/
def Msg.type : Msg → MsgType
  | .create_election _ => .create_election
  | .start_key_ceremony => .start_key_ceremony
  | .trustee_election_keys _ _ => .trustee_election_keys
  | .trustee_partial_election_keys _ => .trustee_partial_election_keys
  | .trustee_verification _ => .trustee_verification
  | .start_vote => .start_vote
  | .vote_cast _ => .vote_cast
  | .end_vote => .end_vote
  | .start_tally => .start_tally
  | .trustee_share _ => .trustee_share

/-- Outbound messages produced by the engine. -/
inductive OutMsg where
  | end_key_ceremony (joint_key : Nat)
  | end_tally (results : List (Nat × List (Nat × Nat)))
  | tally_cast (content : List TallyContest)
deriving DecidableEq

/-- The failures the embedded code can surface: the distinguished
`InvalidBallot` raise, and Python's `AttributeError` on reading an
attribute `__init__` never set. -/
inductive BBError where
  | InvalidBallot
  | AttributeError
deriving DecidableEq

/-- What a step handler reports about the next step: `stay` is Python's
`return …, None` (the step object, possibly with a mutated phase-local
accumulator, remains active); `advance` is `return …, NextStep()`. -/
inductive StepResult where
  | stay (s : Step)
  | advance (s : Step)
deriving DecidableEq

/-- The step that is active after a handler returns. -/
def StepResult.installed : StepResult → Step
  | .stay s => s
  | .advance s => s

/-- CPython dict assignment `m[k] = v`: overwrite in place when the key is
present, otherwise append the new binding at the end. -/
def dinsert (m : List (Nat × α)) (k : Nat) (v : α) : List (Nat × α) :=
  if k ∈ m.map Prod.fst then
    m.map (fun p => if p.1 = k then (k, v) else p)
  else
    m ++ [(k, v)]

/-- Dict lookup `m[k]`, as an `Option`. -/
def dget (m : List (Nat × α)) (k : Nat) : Option α :=
  (m.find? (fun p => p.1 == k)).map Prod.snd

/-- Python `set.add`: duplicate-free insertion; `length` is then the
number of distinct elements, matching `len` on the set. -/
def sinsert (l : List Nat) (g : Nat) : List Nat :=
  if g ∈ l then l else l ++ [g]

/-- The partial decryption a share bundle records for `selection_id`,
scanning `share.contests[*].selections` with dict-overwrite semantics
(the last binding for a repeated selection id wins). -/
def shareSelection (share : TrusteeShare) (selection_id : Nat) : Option Nat :=
  (((share.contests.map (fun q => q.2.selections)).flatten.filter
      (fun s => s.1 == selection_id)).getLast?).map Prod.snd

/-- `ProcessTrusteeShare._prepare_shares_for_decryption`, viewed at one
selection id: the ordered association list
guardian id ↦ (that guardian's `public_key`, its partial decryption for
this selection), over the recorded share bundles in dictionary order. -/
def prepare_shares_for_decryption (tally_shares : List (Nat × TrusteeShare))
    (selection_id : Nat) : List (Nat × (Nat × Nat)) :=
  tally_shares.filterMap (fun p =>
    (shareSelection p.2 selection_id).map
      (fun sel => (p.1, (p.2.public_key, sel))))

/-- The per-contest body of the decryption loop in
`ProcessTrusteeShare.process_message` (lines 158–170): decrypt every
selection of the contest with the gathered shares and the extended base
hash, keyed by object id. -/
def decryptContest (crypto : Crypto) (tally_shares : List (Nat × TrusteeShare))
    (hash : Nat) (contest : TallyContest) : Nat × List (Nat × Nat) :=
  (contest.object_id,
   contest.tally_selections.map (fun sel =>
     (sel.object_id,
      crypto.decrypt_selection_with_decryption_shares sel.ciphertext
        (prepare_shares_for_decryption tally_shares sel.object_id) hash)))

/-- The full `results` dictionary emitted in the `end_tally` message:
one entry per contest of the cast tally. -/
def computeResults (crypto : Crypto) (tally : CiphertextTally)
    (tally_shares : List (Nat × TrusteeShare)) (hash : Nat) :
    List (Nat × List (Nat × Nat)) :=
  tally.cast.map (decryptContest crypto tally_shares hash)

/-- Modelled from the spec: `Context.build_election` lives in `common.py`,
which is not among the sources; per spec §4.2.1 it "builds the initial
election skeleton (guardian count, base parameters) from its content".
Only the guardian count is read by this engine. -/
def build_election (ctx : BulletinBoardContext) (n : Nat) : BulletinBoardContext :=
  { ctx with number_of_guardians := n }

/-- Modelled from the spec: the dispatcher's acceptance test (spec §4.1,
"if the active step declares the message's type outside its accepted set,
the call is a no-op").  Every step accepts exactly its `message_type`
class attribute; `ProcessCastVote` overrides `skip_message` in the source
to accept both `vote.cast` and `end_vote`. -/
def skip_message : Step → MsgType → Bool
  | .ProcessCreateElection, .create_election => false
  | .ProcessStartKeyCeremony, .start_key_ceremony => false
  | .ProcessTrusteeElectionKeys, .trustee_election_keys => false
  | .ProcessTrusteeElectionPartialKeys _, .trustee_partial_election_keys => false
  | .ProcessTrusteeVerification _, .trustee_verification => false
  | .ProcessStartVote, .start_vote => false
  | .ProcessCastVote, .vote_cast => false
  | .ProcessCastVote, .end_vote => false
  | .ProcessStartTally, .start_tally => false
  | .ProcessTrusteeShare, .trustee_share => false
  | _, _ => true

/-- The `process_message` handlers of the nine step classes, as one total
function on (active step, accepted message).  Each branch is the direct
translation of the corresponding Python method; the final catch-all covers
(step, message) pairs the dispatcher never routes here (it skips them). -/
def process_message (crypto : Crypto) (step : Step) (msg : Msg)
    (ctx : BulletinBoardContext) :
    Except BBError (Option OutMsg × StepResult × BulletinBoardContext) :=
  match step, msg with
  | .ProcessCreateElection, .create_election n =>
      .ok (none, .advance .ProcessStartKeyCeremony, build_election ctx n)
  | .ProcessStartKeyCeremony, .start_key_ceremony =>
      .ok (none, .advance .ProcessTrusteeElectionKeys, ctx)
  | .ProcessTrusteeElectionKeys, .trustee_election_keys g k =>
      let pk := dinsert ctx.public_keys g k
      let ctx' := { ctx with public_keys := pk }
      if pk.length = ctx.number_of_guardians then
        .ok (none, .advance (.ProcessTrusteeElectionPartialKeys []), ctx')
      else
        .ok (none, .stay .ProcessTrusteeElectionKeys, ctx')
  | .ProcessTrusteeElectionPartialKeys r, .trustee_partial_election_keys g =>
      let r' := sinsert r g
      if r'.length = ctx.number_of_guardians then
        .ok (none, .advance (.ProcessTrusteeVerification []), ctx)
      else
        .ok (none, .stay (.ProcessTrusteeElectionPartialKeys r'), ctx)
  | .ProcessTrusteeVerification r, .trustee_verification g =>
      let r' := sinsert r g
      if r'.length < ctx.number_of_guardians then
        .ok (none, .stay (.ProcessTrusteeVerification r'), ctx)
      else
        let jk := crypto.elgamal_combine_public_keys (ctx.public_keys.map Prod.snd)
        .ok (some (.end_key_ceremony jk), .advance .ProcessStartVote,
             { ctx with joint_key := some jk,
                        election_params := some (crypto.build_params jk) })
  | .ProcessStartVote, .start_vote =>
      .ok (none, .advance .ProcessCastVote, ctx)
  | .ProcessCastVote, .end_vote =>
      match ctx.election_params with
      | none => .error .AttributeError
      | some p =>
          .ok (none, .advance .ProcessStartTally,
               { ctx with tally := some (crypto.init_tally p) })
  | .ProcessCastVote, .vote_cast b =>
      match ctx.election_params with
      | none => .error .AttributeError
      | some p =>
          if crypto.ballot_is_valid_for_election b p then
            .ok (none, .stay .ProcessCastVote, ctx)
          else
            .error .InvalidBallot
  | .ProcessStartTally, .start_tally =>
      .ok (none, .advance .ProcessTrusteeShare, ctx)
  | .ProcessTrusteeShare, .trustee_share sh =>
      let s' := dinsert ctx.shares sh.guardian_id sh
      let ctx' := { ctx with shares := s' }
      if s'.length < ctx.number_of_guardians then
        .ok (none, .stay .ProcessTrusteeShare, ctx')
      else
        match ctx.tally, ctx.election_params with
        | some t, some p =>
            .ok (some (.end_tally
                   (computeResults crypto t s' p.crypto_extended_base_hash)),
                 .stay .ProcessTrusteeShare, ctx')
        | _, _ => .error .AttributeError
  | s, _ => .ok (none, .stay s, ctx)

/-- The `BulletinBoard` wrapper's state: its context plus the currently
active step. -/
structure BulletinBoard where
  context : BulletinBoardContext
  current_step : Step
deriving DecidableEq

/-- Modelled from the spec: the Dispatcher (`Wrapper` in `common.py`, not
among the sources; spec §4.1): skip messages whose type the active step
does not accept; otherwise run the step's handler and install the
returned next step (or keep the — possibly mutated — current one). -/
def dispatch (crypto : Crypto) (st : BulletinBoard) (m : Msg) :
    Except BBError (Option OutMsg × BulletinBoard) :=
  if skip_message st.current_step m.type then
    .ok (none, st)
  else
    match process_message crypto st.current_step m st.context with
    | .error e => .error e
    | .ok (out, r, ctx) => .ok (out, ⟨ctx, r.installed⟩)

/-- `BulletinBoard.add_ballot`: deserialise the ballot and accumulate it
into `self.context.tally` via `tally_ballot`.  When `context.tally` was
never assigned (i.e. before `end_vote`), the attribute read raises. -/
def add_ballot (crypto : Crypto) (st : BulletinBoard) (ballot : Nat) :
    Except BBError BulletinBoard :=
  match st.context.tally with
  | none => .error .AttributeError
  | some t =>
      .ok { st with context :=
              { st.context with tally := some (crypto.tally_ballot ballot t) } }

/-- `BulletinBoard.get_tally_cast`: serialise `self.context.tally.cast`
as a `tally.cast` message.  When `context.tally` was never assigned, the
attribute read raises. -/
def get_tally_cast (st : BulletinBoard) : Except BBError OutMsg :=
  match st.context.tally with
  | none => .error .AttributeError
  | some t => .ok (.tally_cast t.cast)

/-- `BulletinBoard.__init__`: fresh context, `ProcessCreateElection`
active. -/
def initialContext : BulletinBoardContext :=
  { public_keys := [], has_joint_key := false, shares := [],
    joint_key := none, election_params := none, tally := none }

/-- The initial bulletin-board state. -/
def initialBoard : BulletinBoard :=
  ⟨initialContext, .ProcessCreateElection⟩

/-- Run a list of messages through the dispatcher, counting the step
transitions (`advance` results) that occur; a raised error leaves the
state unchanged (the caller observes the exception, the engine state is
as before the call). -/
def runCount (crypto : Crypto) : BulletinBoard → List Msg → BulletinBoard × Nat
  | st, [] => (st, 0)
  | st, m :: rest =>
    if skip_message st.current_step m.type then
      runCount crypto st rest
    else
      match process_message crypto st.current_step m st.context with
      | .ok (_, .advance s, ctx) =>
          let res := runCount crypto ⟨ctx, s⟩ rest
          (res.1, res.2 + 1)
      | .ok (_, .stay s, ctx) => runCount crypto ⟨ctx, s⟩ rest
      | .error _ => runCount crypto st rest

/-- Anything a client can do to the bulletin board: submit a message, or
use one of the two side-channel operations. -/
inductive BBAction where
  | message (m : Msg)
  | ingest (ballot : Nat)
  | read_cast_tally
deriving DecidableEq

/-- Apply one action; a raised error leaves the state unchanged. -/
def applyAction (crypto : Crypto) (st : BulletinBoard) : BBAction → BulletinBoard
  | .message m =>
      match dispatch crypto st m with
      | .ok (_, st') => st'
      | .error _ => st
  | .ingest b =>
      match add_ballot crypto st b with
      | .ok st' => st'
      | .error _ => st
  | .read_cast_tally => st

/-- Run a list of actions from a state. -/
def runActions (crypto : Crypto) : BulletinBoard → List BBAction → BulletinBoard
  | st, [] => st
  | st, a :: rest => runActions crypto (applyAction crypto st a) rest

/-- The trustee-key messages corresponding to a list of
(guardian id, key) pairs. -/
def keyMsgs (L : List (Nat × Nat)) : List Msg :=
  L.map (fun p => Msg.trustee_election_keys p.1 p.2)

/-- A concrete instantiation of the delegated cryptographic operations,
used to exercise the theorems on closed inputs: key combination is the
product, selection decryption adds the ciphertext, the extended hash and
the recorded partial decryptions (so it only depends on the multiset of
shares, like the real homomorphic combination). -/
def cr0 : Crypto where
  elgamal_combine_public_keys := fun l => l.foldl (fun a b => a * b) 1
  build_params := fun k => ⟨k⟩
  ballot_is_valid_for_election := fun b _ => b % 2 == 0
  init_tally := fun p => ⟨[⟨1, [⟨10, p.crypto_extended_base_hash⟩]⟩]⟩
  tally_ballot := fun b t => ⟨t.cast ++ [⟨b, []⟩]⟩
  decrypt_selection_with_decryption_shares := fun c l h =>
    c + h + (l.map (fun p => p.2.2)).sum

/-- A complete single-guardian key ceremony followed by `start_vote`:
after these actions the board is in the voting phase (`ProcessCastVote`)
and `end_vote` has not yet been processed. -/
def acts7 : List BBAction :=
  [.message (.create_election 1), .message .start_key_ceremony,
   .message (.trustee_election_keys 0 3),
   .message (.trustee_partial_election_keys 0),
   .message (.trustee_verification 0), .message .start_vote]

/-- The board state reached by `acts7`: mid-voting, before `end_vote`. -/
def midVoteBoard : BulletinBoard := runActions cr0 initialBoard acts7

/-- The board state after additionally processing `end_vote`: the tally
accumulator now exists. -/
def tallyBoard : BulletinBoard :=
  runActions cr0 initialBoard (acts7 ++ [.message .end_vote])

/-- A verification-phase context for two guardians whose keys are both
recorded. -/
def ctxV : BulletinBoardContext :=
  { initialContext with number_of_guardians := 2, public_keys := [(0, 3), (1, 4)] }

/-- Share bundle of guardian 0 (public key 3): contest 1, selection 10,
partial decryption 7. -/
def shA : TrusteeShare := ⟨0, 3, [(1, ⟨[(10, 7)]⟩)]⟩

/-- Share bundle of guardian 1 (public key 4): contest 1, selection 10,
partial decryption 9. -/
def shB : TrusteeShare := ⟨1, 4, [(1, ⟨[(10, 9)]⟩)]⟩

/-- A tally-phase context for two guardians: guardian 0's share already
recorded, cast tally with one contest and one selection, extended base
hash 5. -/
def ctxS : BulletinBoardContext :=
  { initialContext with number_of_guardians := 2, shares := [(0, shA)],
                        tally := some ⟨[⟨1, [⟨10, 20⟩]⟩]⟩,
                        election_params := some ⟨5⟩ }

/-! ### Association-list (Python dict) lemmas -/

theorem dinsert_keys_of_mem {α : Type} (m : List (Nat × α)) (k : Nat) (v : α)
    (h : k ∈ m.map Prod.fst) :
    (dinsert m k v).map Prod.fst = m.map Prod.fst := by
  simp only [dinsert, if_pos h, List.map_map]
  refine List.map_congr_left ?_
  intro p _
  by_cases hp : p.1 = k <;> simp [hp]

theorem dinsert_keys_of_not_mem {α : Type} (m : List (Nat × α)) (k : Nat) (v : α)
    (h : k ∉ m.map Prod.fst) :
    (dinsert m k v).map Prod.fst = m.map Prod.fst ++ [k] := by
  simp [dinsert, if_neg h]

theorem dinsert_length_of_mem {α : Type} (m : List (Nat × α)) (k : Nat) (v : α)
    (h : k ∈ m.map Prod.fst) :
    (dinsert m k v).length = m.length := by
  have := congrArg List.length (dinsert_keys_of_mem m k v h)
  simpa using this

theorem dinsert_length_of_not_mem {α : Type} (m : List (Nat × α)) (k : Nat) (v : α)
    (h : k ∉ m.map Prod.fst) :
    (dinsert m k v).length = m.length + 1 := by
  have := congrArg List.length (dinsert_keys_of_not_mem m k v h)
  simpa using this

theorem dinsert_length_ge {α : Type} (m : List (Nat × α)) (k : Nat) (v : α) :
    m.length ≤ (dinsert m k v).length := by
  by_cases h : k ∈ m.map Prod.fst
  · rw [dinsert_length_of_mem m k v h]
  · rw [dinsert_length_of_not_mem m k v h]
    exact Nat.le_succ _

theorem dinsert_nodup {α : Type} (m : List (Nat × α)) (k : Nat) (v : α)
    (h : (m.map Prod.fst).Nodup) :
    ((dinsert m k v).map Prod.fst).Nodup := by
  by_cases hm : k ∈ m.map Prod.fst
  · rw [dinsert_keys_of_mem m k v hm]; exact h
  · rw [dinsert_keys_of_not_mem m k v hm]
    simp [List.nodup_append, h, hm]

theorem dget_append_single {α : Type} (m : List (Nat × α)) (k : Nat) (v : α)
    (h : k ∉ m.map Prod.fst) :
    dget (m ++ [(k, v)]) k = some v := by
  induction m with
  | nil => simp [dget]
  | cons p rest ih =>
      have hne : ¬ p.1 = k := fun hc => h (by simp [hc])
      have hr : k ∉ rest.map Prod.fst := fun hc => h (by simp [hc])
      simp only [dget, List.cons_append, List.find?_cons] at *
      have : (p.1 == k) = false := by simpa using hne
      rw [this]
      exact ih hr

theorem dget_overwrite {α : Type} (m : List (Nat × α)) (k : Nat) (v : α)
    (h : k ∈ m.map Prod.fst) :
    dget (m.map (fun p => if p.1 = k then (k, v) else p)) k = some v := by
  induction m with
  | nil => simp at h
  | cons p rest ih =>
      by_cases hp : p.1 = k
      · simp [dget, List.find?_cons, hp]
      · have hr : k ∈ rest.map Prod.fst := by
          rcases (by simpa using h) with h1 | h2
          · exact absurd h1.symm hp
          · simpa using h2
        have : (p.1 == k) = false := by simpa using hp
        simp only [dget, List.map_cons, if_neg hp, List.find?_cons, this]
        exact ih hr

theorem dget_dinsert {α : Type} (m : List (Nat × α)) (k : Nat) (v : α) :
    dget (dinsert m k v) k = some v := by
  by_cases h : k ∈ m.map Prod.fst
  · simpa [dinsert, if_pos h] using dget_overwrite m k v h
  · simpa [dinsert, if_neg h] using dget_append_single m k v h

/-! ### C2: CollectVerifications -/

/-- C2: while `ProcessTrusteeVerification` is active, a verification
message below quorum emits nothing, keeps the step (adding the guardian to
the phase-local set) and leaves the context untouched; once the number of
distinct recorded guardian ids reaches `number_of_guardians`, the handler
combines all guardian public keys recorded in the context into one joint
key, installs it and the freshly built election parameters into the
context, emits exactly one `end_key_ceremony` message carrying the joint
key, and advances to `ProcessStartVote`. -/
theorem C2_collect_verifications (crypto : Crypto) (ctx : BulletinBoardContext)
    (r : List Nat) (g : Nat) :
    ((sinsert r g).length < ctx.number_of_guardians →
      process_message crypto (.ProcessTrusteeVerification r)
          (.trustee_verification g) ctx
        = .ok (none, .stay (.ProcessTrusteeVerification (sinsert r g)), ctx)) ∧
    ((sinsert r g).length = ctx.number_of_guardians →
      process_message crypto (.ProcessTrusteeVerification r)
          (.trustee_verification g) ctx
        = .ok (some (.end_key_ceremony
                 (crypto.elgamal_combine_public_keys (ctx.public_keys.map Prod.snd))),
               .advance .ProcessStartVote,
               { ctx with
                   joint_key := some
                     (crypto.elgamal_combine_public_keys (ctx.public_keys.map Prod.snd)),
                   election_params := some (crypto.build_params
                     (crypto.elgamal_combine_public_keys
                       (ctx.public_keys.map Prod.snd))) })) := by
  constructor
  · intro h
    simp [process_message, h]
  · intro h
    simp [process_message, h]

/-- Witness for C2: with two guardians whose keys 3 and 4 are recorded and
guardian 0 already verified, guardian 1's verification reaches quorum and
emits the joint key 12 = 3 · 4. -/
theorem C2_collect_verifications_witness :
    process_message cr0 (.ProcessTrusteeVerification [0])
        (.trustee_verification 1) ctxV
      = .ok (some (.end_key_ceremony 12), .advance .ProcessStartVote,
             { ctxV with joint_key := some 12,
                         election_params := some ⟨12⟩ }) :=
  (C2_collect_verifications cr0 ctxV [0] 1).2 (by decide)

/-! ### C4: CastVote error handling -/

/-- C4: on a `vote.cast` message, `InvalidBallot` is raised if and only if
the delegated ballot validation returns `false`; a raise leaves the
engine's state (dispatcher view) unchanged, and on success the handler
returns no outbound message, no transition, and an unchanged context. -/
theorem C4_cast_vote (crypto : Crypto) (ctx : BulletinBoardContext)
    (b : Nat) (p : ElectionParams) (hp : ctx.election_params = some p) :
    (process_message crypto .ProcessCastVote (.vote_cast b) ctx
        = .error .InvalidBallot
      ↔ crypto.ballot_is_valid_for_election b p = false) ∧
    (crypto.ballot_is_valid_for_election b p = true →
      process_message crypto .ProcessCastVote (.vote_cast b) ctx
        = .ok (none, .stay .ProcessCastVote, ctx)) ∧
    (crypto.ballot_is_valid_for_election b p = false →
      applyAction crypto ⟨ctx, .ProcessCastVote⟩ (.message (.vote_cast b))
        = ⟨ctx, .ProcessCastVote⟩) := by
  refine ⟨?_, ?_, ?_⟩
  · cases hv : crypto.ballot_is_valid_for_election b p <;>
      simp [process_message, hp, hv]
  · intro hv
    simp [process_message, hp, hv]
  · intro hv
    simp [applyAction, dispatch, skip_message, Msg.type, process_message, hp, hv]

/-- Witness for C4: under `cr0` (validity = evenness), ballot 7 is
rejected with `InvalidBallot` and the state is unchanged, while ballot 4
is accepted with no emission, no transition and no mutation. -/
theorem C4_cast_vote_witness :
    (process_message cr0 .ProcessCastVote (.vote_cast 7) ctxS
        = .error .InvalidBallot) ∧
    (process_message cr0 .ProcessCastVote (.vote_cast 4) ctxS
        = .ok (none, .stay .ProcessCastVote, ctxS)) ∧
    (applyAction cr0 ⟨ctxS, .ProcessCastVote⟩ (.message (.vote_cast 7))
        = ⟨ctxS, .ProcessCastVote⟩) :=
  ⟨(C4_cast_vote cr0 ctxS 7 ⟨5⟩ rfl).1.mpr (by decide),
   (C4_cast_vote cr0 ctxS 4 ⟨5⟩ rfl).2.1 (by decide),
   (C4_cast_vote cr0 ctxS 7 ⟨5⟩ rfl).2.2 (by decide)⟩

/-! ### C3: CollectShares -/

/-- C3: while `ProcessTrusteeShare` is active, a `tally.trustee_share`
message records the guardian's bundle; below quorum it emits nothing and
does not transition; when the number of distinct guardians with a
recorded bundle reaches `number_of_guardians`, it emits exactly one
`end_tally` message whose results are, for every contest and selection of
the cast tally, the combination (keyed by the extended base hash) of the
(public key, partial decryption) pairs gathered from all recorded
bundles, and it installs no next step (the step stays active). -/
theorem C3_collect_shares (crypto : Crypto) (ctx : BulletinBoardContext)
    (sh : TrusteeShare) (t : CiphertextTally) (p : ElectionParams)
    (ht : ctx.tally = some t) (hp : ctx.election_params = some p) :
    ((dinsert ctx.shares sh.guardian_id sh).length < ctx.number_of_guardians →
      process_message crypto .ProcessTrusteeShare (.trustee_share sh) ctx
        = .ok (none, .stay .ProcessTrusteeShare,
               { ctx with shares := dinsert ctx.shares sh.guardian_id sh })) ∧
    ((dinsert ctx.shares sh.guardian_id sh).length = ctx.number_of_guardians →
      process_message crypto .ProcessTrusteeShare (.trustee_share sh) ctx
        = .ok (some (.end_tally (computeResults crypto t
                (dinsert ctx.shares sh.guardian_id sh)
                p.crypto_extended_base_hash)),
               .stay .ProcessTrusteeShare,
               { ctx with shares := dinsert ctx.shares sh.guardian_id sh })) := by
  constructor
  · intro h
    simp [process_message, h]
  · intro h
    simp [process_message, h, ht, hp]

/-- Witness for C3: guardian 1's bundle reaches the two-guardian quorum;
the emitted `end_tally` results decrypt contest 1, selection 10 to
20 + 5 + (7 + 9) = 41 under `cr0`, and the step stays active. -/
theorem C3_collect_shares_witness :
    process_message cr0 .ProcessTrusteeShare (.trustee_share shB) ctxS
      = .ok (some (.end_tally [(1, [(10, 41)])]),
             .stay .ProcessTrusteeShare,
             { ctxS with shares := [(0, shA), (1, shB)] }) :=
  (C3_collect_shares cr0 ctxS shB ⟨[⟨1, [⟨10, 20⟩]⟩]⟩ ⟨5⟩ rfl rfl).2 (by decide)

/-! ### C10: end_tally is re-emitted on further shares -/

/-- C10: `end_tally` emission is not once-only.  `tally.trustee_share`
messages are still accepted while `ProcessTrusteeShare` stays active, and
once the recorded-share count is at least `number_of_guardians`, every
further share message overwrites that guardian's bundle, re-runs the full
combination over the current share map, emits another `end_tally`, and
again installs no next step. -/
theorem C10_end_tally_reemitted (crypto : Crypto) (ctx : BulletinBoardContext)
    (sh : TrusteeShare) (t : CiphertextTally) (p : ElectionParams)
    (ht : ctx.tally = some t) (hp : ctx.election_params = some p)
    (hq : ctx.number_of_guardians ≤ ctx.shares.length) :
    skip_message .ProcessTrusteeShare .trustee_share = false ∧
    process_message crypto .ProcessTrusteeShare (.trustee_share sh) ctx
      = .ok (some (.end_tally (computeResults crypto t
              (dinsert ctx.shares sh.guardian_id sh)
              p.crypto_extended_base_hash)),
             .stay .ProcessTrusteeShare,
             { ctx with shares := dinsert ctx.shares sh.guardian_id sh }) ∧
    dget (dinsert ctx.shares sh.guardian_id sh) sh.guardian_id = some sh := by
  have hlen : ¬ (dinsert ctx.shares sh.guardian_id sh).length
      < ctx.number_of_guardians :=
    Nat.not_lt.mpr (le_trans hq (dinsert_length_ge _ _ _))
  refine ⟨rfl, ?_, dget_dinsert _ _ _⟩
  simp [process_message, hlen, ht, hp]

/-- Witness for C10: with both guardians' bundles already recorded,
guardian 0 re-submits a bundle with partial decryption 11; the bundle is
overwritten and a fresh `end_tally` with 20 + 5 + (11 + 9) = 45 is
emitted, the step staying active. -/
theorem C10_end_tally_reemitted_witness :
    process_message cr0 .ProcessTrusteeShare
        (.trustee_share ⟨0, 3, [(1, ⟨[(10, 11)]⟩)]⟩)
        { ctxS with shares := [(0, shA), (1, shB)] }
      = .ok (some (.end_tally [(1, [(10, 45)])]),
             .stay .ProcessTrusteeShare,
             { ctxS with shares := [(0, ⟨0, 3, [(1, ⟨[(10, 11)]⟩)]⟩), (1, shB)] }) :=
  (C10_end_tally_reemitted cr0 { ctxS with shares := [(0, shA), (1, shB)] }
      ⟨0, 3, [(1, ⟨[(10, 11)]⟩)]⟩ ⟨[⟨1, [⟨10, 20⟩]⟩]⟩ ⟨5⟩ rfl rfl (by decide)).2.1

/-! ### C7: ballot ingestion side channel -/

/-- C7 counterexample: after a complete key ceremony and `start_vote` —
so voting has started (`ProcessCastVote` is active) but `end_vote` has not
been processed — `add_ballot` does not succeed: `context.tally` was never
assigned, so the attribute read fails.  This refutes the claim that the
side channel is always legal once voting has started. -/
theorem C7_add_ballot_counterexample :
    midVoteBoard.current_step = Step.ProcessCastVote ∧
    midVoteBoard.context.tally = none ∧
    add_ballot cr0 midVoteBoard 9 = .error .AttributeError :=
  ⟨rfl, rfl, rfl⟩

/-- C7 amended: `add_ballot` succeeds and mutates the tally accumulator
exactly when the accumulator exists, i.e. once `end_vote` has been
processed; before that (even after `start_vote`) the call fails with an
attribute error and mutates nothing. -/
theorem C7_add_ballot (crypto : Crypto) (st : BulletinBoard) (b : Nat) :
    (st.context.tally = none →
      add_ballot crypto st b = .error .AttributeError) ∧
    (∀ t, st.context.tally = some t →
      add_ballot crypto st b
        = .ok { st with context :=
                  { st.context with tally := some (crypto.tally_ballot b t) } }) := by
  constructor
  · intro h
    simp [add_ballot, h]
  · intro t h
    simp [add_ballot, h]

/-- Witness for C7 (amended): after `end_vote` the tally exists and
`add_ballot` accumulates ballot 5 into it. -/
theorem C7_add_ballot_witness :
    add_ballot cr0 tallyBoard 5
      = .ok { tallyBoard with context :=
                { tallyBoard.context with
                    tally := some ⟨[⟨1, [⟨10, 3⟩]⟩, ⟨5, []⟩]⟩ } } :=
  (C7_add_ballot cr0 tallyBoard 5).2 ⟨[⟨1, [⟨10, 3⟩]⟩]⟩ rfl

/-! ### C8: cast-tally export side channel -/

/-- C8 counterexample: mid-voting — after `start_vote`, before `end_vote`
— `get_tally_cast` is not callable: `context.tally` was never assigned, so
the attribute read fails.  This refutes the claim that the export is
callable at any time. -/
theorem C8_get_tally_cast_counterexample :
    midVoteBoard.current_step = Step.ProcessCastVote ∧
    get_tally_cast midVoteBoard = .error .AttributeError :=
  ⟨rfl, rfl⟩

/-- C8 amended: `get_tally_cast` succeeds exactly when the tally
accumulator exists (from `end_vote` on); it then returns a `tally.cast`
message whose content is the serialized currently-cast set, and after an
`add_ballot` it reflects the newly ingested ballot. -/
theorem C8_get_tally_cast (crypto : Crypto) (st : BulletinBoard) (b : Nat) :
    (st.context.tally = none →
      get_tally_cast st = .error .AttributeError) ∧
    (∀ t, st.context.tally = some t →
      get_tally_cast st = .ok (.tally_cast t.cast)) ∧
    (∀ t st', st.context.tally = some t → add_ballot crypto st b = .ok st' →
      get_tally_cast st' = .ok (.tally_cast (crypto.tally_ballot b t).cast)) := by
  refine ⟨?_, ?_, ?_⟩
  · intro h
    simp [get_tally_cast, h]
  · intro t h
    simp [get_tally_cast, h]
  · intro t st' h hadd
    simp only [add_ballot, h] at hadd
    cases hadd
    simp [get_tally_cast]

/-- Witness for C8 (amended): after `end_vote`, `get_tally_cast` returns
the cast set, and after ingesting ballot 5 it reflects that ballot. -/
theorem C8_get_tally_cast_witness :
    get_tally_cast tallyBoard = .ok (.tally_cast [⟨1, [⟨10, 3⟩]⟩]) ∧
    get_tally_cast
        { tallyBoard with context :=
            { tallyBoard.context with
                tally := some ⟨[⟨1, [⟨10, 3⟩]⟩, ⟨5, []⟩]⟩ } }
      = .ok (.tally_cast [⟨1, [⟨10, 3⟩]⟩, ⟨5, []⟩]) :=
  ⟨(C8_get_tally_cast cr0 tallyBoard 5).2.1 ⟨[⟨1, [⟨10, 3⟩]⟩]⟩ rfl,
   (C8_get_tally_cast cr0 tallyBoard 5).2.2 ⟨[⟨1, [⟨10, 3⟩]⟩]⟩ _ rfl rfl⟩

/-! ### C5: joint key provenance and immutability -/

/-- C5: the joint public key emitted and installed at verification quorum
is computed from exactly the guardian public keys recorded in the context
at that moment (the values of `public_keys`, no more and no fewer); and
once the step has advanced past `ProcessTrusteeElectionKeys`, a re-sent
guardian-key message is skipped by the dispatcher, leaving the whole
state — in particular `joint_key` and `election_params` — unchanged. -/
theorem C5_joint_key_immutable (crypto : Crypto) (ctx : BulletinBoardContext)
    (r : List Nat) (g : Nat)
    (hq : ¬ (sinsert r g).length < ctx.number_of_guardians) :
    (process_message crypto (.ProcessTrusteeVerification r)
        (.trustee_verification g) ctx
      = .ok (some (.end_key_ceremony
               (crypto.elgamal_combine_public_keys (ctx.public_keys.map Prod.snd))),
             .advance .ProcessStartVote,
             { ctx with
                 joint_key := some
                   (crypto.elgamal_combine_public_keys (ctx.public_keys.map Prod.snd)),
                 election_params := some (crypto.build_params
                   (crypto.elgamal_combine_public_keys
                     (ctx.public_keys.map Prod.snd))) })) ∧
    (∀ (st : BulletinBoard) (g' k : Nat),
      st.current_step ≠ .ProcessTrusteeElectionKeys →
      dispatch crypto st (.trustee_election_keys g' k) = .ok (none, st)) := by
  constructor
  · simp [process_message, hq]
  · intro st g' k hstep
    have hskip : skip_message st.current_step .trustee_election_keys = true := by
      cases hs : st.current_step <;> first
        | rfl
        | exact absurd hs hstep
    simp [dispatch, Msg.type, hskip]

/-- Witness for C5: quorum reached with recorded keys {3, 4} yields joint
key 12; re-sending guardian 0's key to the post-combination board
(`ProcessStartVote` active) is a no-op that preserves the installed joint
key and parameters. -/
theorem C5_joint_key_immutable_witness :
    (process_message cr0 (.ProcessTrusteeVerification [0])
        (.trustee_verification 1) ctxV
      = .ok (some (.end_key_ceremony 12), .advance .ProcessStartVote,
             { ctxV with joint_key := some 12, election_params := some ⟨12⟩ })) ∧
    dispatch cr0
        ⟨{ ctxV with joint_key := some 12, election_params := some ⟨12⟩ },
         .ProcessStartVote⟩
        (.trustee_election_keys 0 99)
      = .ok (none,
             ⟨{ ctxV with joint_key := some 12, election_params := some ⟨12⟩ },
              .ProcessStartVote⟩) :=
  ⟨(C5_joint_key_immutable cr0 ctxV [0] 1 (by decide)).1,
   (C5_joint_key_immutable cr0 ctxV [0] 1 (by decide)).2
     ⟨{ ctxV with joint_key := some 12, election_params := some ⟨12⟩ },
      .ProcessStartVote⟩ 0 99 (by decide)⟩

/-! ### C6: tally combination uses one pair per guardian and is
order-deterministic -/

theorem prepare_shares_eq_map (s : List (Nat × TrusteeShare)) (sid : Nat)
    (hcov : ∀ p ∈ s, (shareSelection p.2 sid).isSome) :
    prepare_shares_for_decryption s sid
      = s.map (fun p => (p.1, (p.2.public_key, (shareSelection p.2 sid).getD 0))) := by
  induction s with
  | nil => rfl
  | cons p rest ih =>
      obtain ⟨pd, hpd⟩ :=
        Option.isSome_iff_exists.mp (hcov p (List.mem_cons_self p rest))
      have hrest := ih (fun q hq => hcov q (List.mem_cons_of_mem p hq))
      simp only [prepare_shares_for_decryption, List.filterMap_cons, hpd,
        Option.map_some', List.map_cons, Option.getD_some] at *
      exact congrArg _ hrest

theorem prepare_shares_perm (s1 s2 : List (Nat × TrusteeShare)) (sid : Nat)
    (h : s1.Perm s2) :
    (prepare_shares_for_decryption s1 sid).Perm
      (prepare_shares_for_decryption s2 sid) :=
  h.filterMap _

theorem computeResults_perm (crypto : Crypto) (t : CiphertextTally)
    (s1 s2 : List (Nat × TrusteeShare)) (hash : Nat)
    (hcomb : ∀ c l1 l2 h, List.Perm l1 l2 →
      crypto.decrypt_selection_with_decryption_shares c l1 h
        = crypto.decrypt_selection_with_decryption_shares c l2 h)
    (hperm : s1.Perm s2) :
    computeResults crypto t s1 hash = computeResults crypto t s2 hash := by
  unfold computeResults
  refine List.map_congr_left ?_
  intro contest _
  unfold decryptContest
  refine congrArg (Prod.mk contest.object_id) ?_
  refine List.map_congr_left ?_
  intro sel _
  exact congrArg (Prod.mk sel.object_id)
    (hcomb _ _ _ _ (prepare_shares_perm s1 s2 sel.object_id hperm))

/-- C6: when every one of the `N` recorded share bundles covers a
selection, the gathered list for that selection pairs each guardian, in
dictionary order, with that guardian's own public key and partial
decryption — exactly `N` pairs, one per guardian; and when the delegated
per-selection combination depends only on the multiset of pairs (as the
real homomorphic combination does), two share maps that are permutations
of one another — identical sets of bundles submitted in any order — yield
identical `end_tally` results. -/
theorem C6_share_combination (crypto : Crypto) (t : CiphertextTally)
    (s s1 s2 : List (Nat × TrusteeShare)) (hash N sid : Nat)
    (hlen : s.length = N)
    (hcov : ∀ p ∈ s, (shareSelection p.2 sid).isSome)
    (hcomb : ∀ c l1 l2 h, List.Perm l1 l2 →
      crypto.decrypt_selection_with_decryption_shares c l1 h
        = crypto.decrypt_selection_with_decryption_shares c l2 h)
    (hperm : s1.Perm s2) :
    prepare_shares_for_decryption s sid
        = s.map (fun p => (p.1, (p.2.public_key, (shareSelection p.2 sid).getD 0))) ∧
    (prepare_shares_for_decryption s sid).length = N ∧
    (prepare_shares_for_decryption s sid).map Prod.fst = s.map Prod.fst ∧
    computeResults crypto t s1 hash = computeResults crypto t s2 hash := by
  have heq := prepare_shares_eq_map s sid hcov
  refine ⟨heq, ?_, ?_, computeResults_perm crypto t s1 s2 hash hcomb hperm⟩
  · rw [heq, List.length_map, hlen]
  · rw [heq, List.map_map]
    rfl

/-- Witness for C6: with the two bundles `shA`, `shB` (both covering
selection 10), the gathered pairs are exactly one per guardian with that
guardian's public key, and submitting the bundles in either order yields
the same results under `cr0`, whose combination is a sum and hence
permutation-invariant. -/
theorem C6_share_combination_witness :
    prepare_shares_for_decryption [(0, shA), (1, shB)] 10
        = [(0, (3, 7)), (1, (4, 9))] ∧
    (prepare_shares_for_decryption [(0, shA), (1, shB)] 10).length = 2 ∧
    (prepare_shares_for_decryption [(0, shA), (1, shB)] 10).map Prod.fst
        = [0, 1] ∧
    computeResults cr0 ⟨[⟨1, [⟨10, 20⟩]⟩]⟩ [(0, shA), (1, shB)] 5
        = computeResults cr0 ⟨[⟨1, [⟨10, 20⟩]⟩]⟩ [(1, shB), (0, shA)] 5 := by
  have h := C6_share_combination cr0 ⟨[⟨1, [⟨10, 20⟩]⟩]⟩
    [(0, shA), (1, shB)] [(0, shA), (1, shB)] [(1, shB), (0, shA)] 5 2 10
    (by decide) (by decide)
    (fun c l1 l2 h hp => by
      simp only [cr0]
      exact congrArg (fun x => c + h + x) ((hp.map (fun p => p.2.2)).sum_eq))
    (by decide)
  exact ⟨h.1, h.2.1, h.2.2.1, h.2.2.2⟩

/-! ### C9: has_joint_key is never assigned -/

theorem process_message_hjk (crypto : Crypto) (step : Step) (msg : Msg)
    (ctx : BulletinBoardContext) (out : Option OutMsg) (r : StepResult)
    (ctx' : BulletinBoardContext)
    (h : process_message crypto step msg ctx = .ok (out, r, ctx')) :
    ctx'.has_joint_key = ctx.has_joint_key := by
  cases step <;> cases msg <;>
    simp only [process_message, build_election] at h <;>
    (repeat' split at h) <;>
    first
      | (simp only [Except.ok.injEq, Prod.mk.injEq] at h
         obtain ⟨-, -, h3⟩ := h
         subst h3
         rfl)
      | simp at h

theorem dispatch_hjk (crypto : Crypto) (st : BulletinBoard) (m : Msg)
    (out : Option OutMsg) (st' : BulletinBoard)
    (h : dispatch crypto st m = .ok (out, st')) :
    st'.context.has_joint_key = st.context.has_joint_key := by
  unfold dispatch at h
  split at h
  · simp only [Except.ok.injEq, Prod.mk.injEq] at h
    obtain ⟨-, h2⟩ := h
    subst h2
    rfl
  · cases hpm : process_message crypto st.current_step m st.context with
    | error e => rw [hpm] at h; simp at h
    | ok x =>
        obtain ⟨o, r, ctx⟩ := x
        rw [hpm] at h
        simp only [Except.ok.injEq, Prod.mk.injEq] at h
        obtain ⟨-, h2⟩ := h
        subst h2
        exact process_message_hjk crypto _ m _ o r ctx hpm

theorem applyAction_hjk (crypto : Crypto) (st : BulletinBoard) (a : BBAction) :
    (applyAction crypto st a).context.has_joint_key
      = st.context.has_joint_key := by
  cases a with
  | message m =>
      simp only [applyAction]
      cases hd : dispatch crypto st m with
      | error e => rfl
      | ok x =>
          obtain ⟨o, st'⟩ := x
          exact dispatch_hjk crypto st m o st' hd
  | ingest b =>
      simp only [applyAction]
      cases ht : st.context.tally with
      | none => simp [add_ballot, ht]
      | some t => simp [add_ballot, ht]
  | read_cast_tally => rfl

theorem runActions_hjk (crypto : Crypto) (acts : List BBAction) :
    ∀ st : BulletinBoard,
      (runActions crypto st acts).context.has_joint_key
        = st.context.has_joint_key := by
  induction acts with
  | nil => intro st; rfl
  | cons a rest ih =>
      intro st
      rw [runActions, ih]
      exact applyAction_hjk crypto st a

/-- C9: `has_joint_key` is `False` at construction and no handler or
side-channel operation ever assigns it, so it is `false` in every state
reachable by any sequence of messages and side-channel calls — even after
the joint election key has been combined and installed. -/
theorem C9_has_joint_key_never_set (crypto : Crypto) (acts : List BBAction) :
    (runActions crypto initialBoard acts).context.has_joint_key = false :=
  runActions_hjk crypto acts initialBoard

/-! ### C1: CollectGuardianKeys quorum behaviour -/

theorem dinsert_keyset {α : Type} (m : List (Nat × α)) (k : Nat) (v : α) :
    ((dinsert m k v).map Prod.fst).toFinset
      = insert k (m.map Prod.fst).toFinset := by
  by_cases h : k ∈ m.map Prod.fst
  · rw [dinsert_keys_of_mem m k v h]
    exact (Finset.insert_eq_self.mpr (List.mem_toFinset.mpr h)).symm
  · rw [dinsert_keys_of_not_mem m k v h]
    rw [List.toFinset_append]
    simp [Finset.union_comm, Finset.insert_eq]

theorem runCount_skip (crypto : Crypto) :
    ∀ (msgs : List Msg) (st : BulletinBoard),
      (∀ m ∈ msgs, skip_message st.current_step m.type = true) →
      runCount crypto st msgs = (st, 0) := by
  intro msgs
  induction msgs with
  | nil => intro st _; rfl
  | cons m rest ih =>
      intro st h
      rw [runCount]
      rw [if_pos (h m (List.mem_cons_self m rest))]
      exact ih st (fun m' hm' => h m' (List.mem_cons_of_mem m hm'))


theorem runCount_cons_advance (crypto : Crypto) (st : BulletinBoard) (m : Msg)
    (rest : List Msg) (o : Option OutMsg) (s : Step) (c : BulletinBoardContext)
    (h : skip_message st.current_step m.type = false)
    (hpm : process_message crypto st.current_step m st.context = .ok (o, .advance s, c)) :
    runCount crypto st (m :: rest)
      = ((runCount crypto ⟨c, s⟩ rest).1, (runCount crypto ⟨c, s⟩ rest).2 + 1) := by
  rw [runCount, if_neg (by simp [h]), hpm]

theorem runCount_cons_stay (crypto : Crypto) (st : BulletinBoard) (m : Msg)
    (rest : List Msg) (o : Option OutMsg) (s : Step) (c : BulletinBoardContext)
    (h : skip_message st.current_step m.type = false)
    (hpm : process_message crypto st.current_step m st.context = .ok (o, .stay s, c)) :
    runCount crypto st (m :: rest) = runCount crypto ⟨c, s⟩ rest := by
  rw [runCount, if_neg (by simp [h]), hpm]

theorem runKeys_aux (crypto : Crypto) :
    ∀ (L : List (Nat × Nat)) (ctx : BulletinBoardContext),
      (ctx.public_keys.map Prod.fst).Nodup →
      ctx.public_keys.length < ctx.number_of_guardians →
      ((((ctx.public_keys.map Prod.fst).toFinset
            ∪ (L.map Prod.fst).toFinset).card < ctx.number_of_guardians →
         ∃ ctx' : BulletinBoardContext,
           runCount crypto ⟨ctx, .ProcessTrusteeElectionKeys⟩ (keyMsgs L)
             = (⟨ctx', .ProcessTrusteeElectionKeys⟩, 0) ∧
           (ctx'.public_keys.map Prod.fst).toFinset
             = (ctx.public_keys.map Prod.fst).toFinset
                 ∪ (L.map Prod.fst).toFinset) ∧
       (¬ (((ctx.public_keys.map Prod.fst).toFinset
            ∪ (L.map Prod.fst).toFinset).card < ctx.number_of_guardians) →
         ∃ ctx' : BulletinBoardContext,
           runCount crypto ⟨ctx, .ProcessTrusteeElectionKeys⟩ (keyMsgs L)
             = (⟨ctx', .ProcessTrusteeElectionPartialKeys []⟩, 1))) := by
  intro L
  induction L with
  | nil =>
      intro ctx hnd hlt
      have hcard : (ctx.public_keys.map Prod.fst).toFinset.card
          = ctx.public_keys.length := by
        rw [List.toFinset_card_of_nodup hnd, List.length_map]
      constructor
      · intro _
        exact ⟨ctx, rfl, by simp⟩
      · intro hge
        exact absurd (by simpa [hcard] using hlt) hge
  | cons q rest ih =>
      intro ctx hnd hlt
      obtain ⟨g, k⟩ := q
      have hks := dinsert_keyset ctx.public_keys g k
      have hnd' := dinsert_nodup ctx.public_keys g k hnd
      have hunion : (ctx.public_keys.map Prod.fst).toFinset
            ∪ ((((g, k) :: rest).map Prod.fst).toFinset)
          = ((dinsert ctx.public_keys g k).map Prod.fst).toFinset
            ∪ (rest.map Prod.fst).toFinset := by
        rw [hks]
        simp [Finset.insert_union, Finset.union_insert]
      have hcons : keyMsgs ((g, k) :: rest)
          = Msg.trustee_election_keys g k :: keyMsgs rest := rfl
      by_cases hq : (dinsert ctx.public_keys g k).length = ctx.number_of_guardians
      · have hpm : process_message crypto .ProcessTrusteeElectionKeys
              (.trustee_election_keys g k) ctx
            = .ok (none, .advance (.ProcessTrusteeElectionPartialKeys []),
                   { ctx with public_keys := dinsert ctx.public_keys g k }) := by
          simp [process_message, hq]
        have hskip : runCount crypto
            ⟨{ ctx with public_keys := dinsert ctx.public_keys g k },
             .ProcessTrusteeElectionPartialKeys []⟩ (keyMsgs rest)
            = (⟨{ ctx with public_keys := dinsert ctx.public_keys g k },
                .ProcessTrusteeElectionPartialKeys []⟩, 0) := by
          apply runCount_skip
          intro m hm
          simp only [keyMsgs, List.mem_map] at hm
          obtain ⟨p, -, hp⟩ := hm
          subst hp
          rfl
        have hrun : runCount crypto ⟨ctx, .ProcessTrusteeElectionKeys⟩
              (keyMsgs ((g, k) :: rest))
            = (⟨{ ctx with public_keys := dinsert ctx.public_keys g k },
                .ProcessTrusteeElectionPartialKeys []⟩, 1) := by
          rw [hcons, runCount_cons_advance crypto
            ⟨ctx, .ProcessTrusteeElectionKeys⟩ (.trustee_election_keys g k)
            (keyMsgs rest) none (.ProcessTrusteeElectionPartialKeys [])
            { ctx with public_keys := dinsert ctx.public_keys g k } rfl hpm, hskip]
        have hcardge : ctx.number_of_guardians
            ≤ (((dinsert ctx.public_keys g k).map Prod.fst).toFinset
                ∪ (rest.map Prod.fst).toFinset).card := by
          calc ctx.number_of_guardians
              = (dinsert ctx.public_keys g k).length := hq.symm
            _ = ((dinsert ctx.public_keys g k).map Prod.fst).length := by simp
            _ = ((dinsert ctx.public_keys g k).map Prod.fst).toFinset.card :=
                (List.toFinset_card_of_nodup hnd').symm
            _ ≤ _ := Finset.card_le_card Finset.subset_union_left
        refine ⟨?_, ?_⟩
        · intro hlt2
          rw [hunion] at hlt2
          exact absurd hlt2 (Nat.not_lt.mpr hcardge)
        · intro _
          exact ⟨_, hrun⟩
      · have hpm : process_message crypto .ProcessTrusteeElectionKeys
              (.trustee_election_keys g k) ctx
            = .ok (none, .stay .ProcessTrusteeElectionKeys,
                   { ctx with public_keys := dinsert ctx.public_keys g k }) := by
          simp [process_message, hq]
        have hlen' : (dinsert ctx.public_keys g k).length
            < ctx.number_of_guardians := by
          by_cases hm : g ∈ ctx.public_keys.map Prod.fst
          · rw [dinsert_length_of_mem _ _ _ hm]
            exact hlt
          · rw [dinsert_length_of_not_mem _ _ _ hm]
            cases Nat.lt_or_eq_of_le (Nat.succ_le_of_lt hlt) with
            | inl h => exact h
            | inr h =>
                exact absurd (by rw [dinsert_length_of_not_mem _ _ _ hm]; exact h) hq
        have hrun : runCount crypto ⟨ctx, .ProcessTrusteeElectionKeys⟩
              (keyMsgs ((g, k) :: rest))
            = runCount crypto
                ⟨{ ctx with public_keys := dinsert ctx.public_keys g k },
                 .ProcessTrusteeElectionKeys⟩ (keyMsgs rest) := by
          rw [hcons]
          exact runCount_cons_stay crypto
            ⟨ctx, .ProcessTrusteeElectionKeys⟩ (.trustee_election_keys g k)
            (keyMsgs rest) none .ProcessTrusteeElectionKeys
            { ctx with public_keys := dinsert ctx.public_keys g k } rfl hpm
        have IH := ih { ctx with public_keys := dinsert ctx.public_keys g k }
          hnd' hlen'
        refine ⟨?_, ?_⟩
        · intro hlt2
          rw [hunion] at hlt2
          obtain ⟨ctx', h1, h2⟩ := IH.1 hlt2
          refine ⟨ctx', ?_, ?_⟩
          · rw [hrun]
            exact h1
          · rw [h2, ← hunion]
        · intro hge2
          rw [hunion] at hge2
          obtain ⟨ctx', h1⟩ := IH.2 hge2
          refine ⟨ctx', ?_⟩
          rw [hrun]
          exact h1

/-- C1: from the start of `ProcessTrusteeElectionKeys` (no keys recorded,
`number_of_guardians = N ≥ 1`), a sequence of trustee-key messages from
`N` distinct guardians, in any order, produces exactly one step
transition, landing in `ProcessTrusteeElectionPartialKeys`; a sequence
from fewer than `N` distinct guardians produces no transition and leaves
the step unchanged, the recorded guardian set being exactly the senders;
and a re-submission from an already-seen guardian (below quorum)
overwrites that guardian's recorded key without changing the recorded
guardian identities, hence without increasing the distinct count. -/
theorem C1_collect_guardian_keys (crypto : Crypto) (ctx : BulletinBoardContext)
    (N : Nat) (L : List (Nat × Nat))
    (hN : 1 ≤ N) (hg : ctx.number_of_guardians = N) (h0 : ctx.public_keys = []) :
    ((L.map Prod.fst).toFinset.card = N →
       ∃ ctx' : BulletinBoardContext,
         runCount crypto ⟨ctx, .ProcessTrusteeElectionKeys⟩ (keyMsgs L)
           = (⟨ctx', .ProcessTrusteeElectionPartialKeys []⟩, 1)) ∧
    ((L.map Prod.fst).toFinset.card < N →
       ∃ ctx' : BulletinBoardContext,
         runCount crypto ⟨ctx, .ProcessTrusteeElectionKeys⟩ (keyMsgs L)
           = (⟨ctx', .ProcessTrusteeElectionKeys⟩, 0) ∧
         (ctx'.public_keys.map Prod.fst).toFinset = (L.map Prod.fst).toFinset) ∧
    (∀ (ctx₂ : BulletinBoardContext) (g k : Nat),
       g ∈ ctx₂.public_keys.map Prod.fst →
       ctx₂.public_keys.length < ctx₂.number_of_guardians →
       process_message crypto .ProcessTrusteeElectionKeys
           (.trustee_election_keys g k) ctx₂
         = .ok (none, .stay .ProcessTrusteeElectionKeys,
                { ctx₂ with public_keys := dinsert ctx₂.public_keys g k }) ∧
       (dinsert ctx₂.public_keys g k).map Prod.fst
         = ctx₂.public_keys.map Prod.fst ∧
       dget (dinsert ctx₂.public_keys g k) g = some k) := by
  have hnd : (ctx.public_keys.map Prod.fst).Nodup := by
    rw [h0]; exact List.nodup_nil
  have hlt : ctx.public_keys.length < ctx.number_of_guardians := by
    rw [h0, hg]
    exact Nat.lt_of_lt_of_le Nat.zero_lt_one hN
  have aux := runKeys_aux crypto L ctx hnd hlt
  have hempty : (ctx.public_keys.map Prod.fst).toFinset = (∅ : Finset Nat) := by
    rw [h0]; rfl
  refine ⟨?_, ?_, ?_⟩
  · intro hcard
    apply aux.2
    rw [hempty, Finset.empty_union, hcard, hg]
    exact Nat.lt_irrefl N
  · intro hcard
    obtain ⟨ctx', h1, h2⟩ := aux.1 (by rw [hempty, Finset.empty_union, hg]; exact hcard)
    exact ⟨ctx', h1, by rw [h2, hempty, Finset.empty_union]⟩
  · intro ctx₂ g k hmem hlen
    have hkeys : (dinsert ctx₂.public_keys g k).map Prod.fst
        = ctx₂.public_keys.map Prod.fst := dinsert_keys_of_mem _ _ _ hmem
    have hne : ¬ (dinsert ctx₂.public_keys g k).length = ctx₂.number_of_guardians := by
      rw [dinsert_length_of_mem _ _ _ hmem]
      exact Nat.ne_of_lt hlen
    refine ⟨?_, hkeys, dget_dinsert _ _ _⟩
    simp [process_message, hne]

/-- Witness for C1: with `N = 2`, keys from the two distinct guardians
0 and 1 cause exactly one transition, into
`ProcessTrusteeElectionPartialKeys`. -/
theorem C1_collect_guardian_keys_witness :
    ∃ ctx' : BulletinBoardContext,
      runCount cr0
          ⟨{ initialContext with number_of_guardians := 2 },
           .ProcessTrusteeElectionKeys⟩ (keyMsgs [(0, 5), (1, 7)])
        = (⟨ctx', .ProcessTrusteeElectionPartialKeys []⟩, 1) :=
  (C1_collect_guardian_keys cr0 { initialContext with number_of_guardians := 2 }
    2 [(0, 5), (1, 7)] (by decide) rfl rfl).1 (by decide)
